import Mathlib

/-!
Verification of the pyFTS high-order non-stationary forecasting core.

This file gives a shallow embedding, over `ℚ`, of:
* the grid partitioner (`pyFTS/partitioners/Grid.py`, `GridPartitioner.build`);
* the high-order non-stationary model (`pyFTS/models/nonstationary/honsfts.py`):
  rule generation (`generate_flrg`), training (`train`), candidate-rule discovery
  (`_affected_flrgs`), point forecasting (`forecast`) and interval forecasting
  (`forecast_interval`);
* the clustered multivariate wrapper (`pyFTS/models/multivariate/cmvfts.py`):
  capability checks and multi-step distribution forecasting;
* the ensemble multi-step interval forecaster
  (`pyFTS/models/ensemble/ensemble.py`, `forecast_ahead_interval`).

Helper modules of the repository that the core imports but whose source is not
available (`pyFTS/common/Membership.py`, `pyFTS/common/tree.py`,
`pyFTS/models/nonstationary/common.py`, `pyFTS/models/nonstationary/flrg.py`,
`pyFTS/partitioners/partitioner.py`, `pyFTS/common/fts.py`) are modelled from
the specification; each such definition carries a doc comment that starts with
`Modelled from the spec:`.  Python floats are modelled as exact rationals.
-/

/-! ## Membership functions (Modelled from the spec, section 4.1) -/

/-- Modelled from the spec: `pyFTS/common/Membership.py` is not in the sources.
Triangular membership `Triangular(x, [a, b, c])`: 0 outside `[a, c]`, linear
ramp up to 1 at `b`, linear ramp down after.  A malformed parameter vector is a
caller contract violation; it is modelled as membership 0. -/
def trimf (x : ℚ) (p : List ℚ) : ℚ :=
  match p with
  | [a, b, c] =>
    if x < a then 0
    else if x < b then (x - a) / (b - a)
    else if x ≤ c then (c - x) / (c - b)
    else 0
  | _ => 0

/-- Modelled from the spec: trapezoidal membership `Trapezoidal(x, [a, b, c, d])`:
0 outside `[a, d]`, 1 on `[b, c]`, linear ramps on the sides. -/
def trapmf (x : ℚ) (p : List ℚ) : ℚ :=
  match p with
  | [a, b, c, d] =>
    if x < a then 0
    else if x < b then (x - a) / (b - a)
    else if x ≤ c then 1
    else if x ≤ d then (d - x) / (d - c)
    else 0
  | _ => 0

/-- The membership-function tag stored in a fuzzy set.  The source
(`Grid.py`) selects behaviour by comparing function references
(`Membership.trimf`, `Membership.gaussmf`, `Membership.trapmf`); spec
section 9 describes this as a tagged variant. -/
inductive MF where
  | trimf
  | gaussmf
  | trapmf
deriving DecidableEq, Repr

/-- A grid fuzzy set as built by `GridPartitioner.build`: a name, the
membership-function tag, its parameter vector and the centroid
(spec section 3, `FuzzySet`). -/
structure GFuzzySet where
  name : String
  mf : MF
  parameters : List ℚ
  centroid : ℚ
deriving DecidableEq, Repr

/-- Membership evaluation of a grid fuzzy set: `self.mf(x, self.parameters)`.
The Gaussian case needs `exp`, which has no exact rational value; no claim
evaluates a Gaussian membership, and the case is modelled as 0. -/
def GFuzzySet.membership (s : GFuzzySet) (x : ℚ) : ℚ :=
  match s.mf with
  | .trimf => trimf x s.parameters
  | .trapmf => trapmf x s.parameters
  | .gaussmf => 0

/-! ## numpy arange over ℚ -/

/-- `np.arange(start, stop, step)` for a positive step: the values
`start + i * step` for `0 ≤ i < ⌈(stop - start) / step⌉`. -/
def arangeQ (start stop step : ℚ) : List ℚ :=
  if 0 < step then
    (List.range (⌈(stop - start) / step⌉).toNat).map
      (fun i => start + (i : ℚ) * step)
  else []

/-! ## Grid partitioner (`pyFTS/partitioners/Grid.py`, `build`) -/

/-- Modelled from the spec: `Partitioner.get_name` lives in the missing
`pyFTS/partitioners/partitioner.py`; the spec asks for sequentially named
sets, modelled as the prefixed counter `A0, A1, ...`. -/
def grid_set_name (count : ℕ) : String := "A" ++ toString count

/-- One fuzzy set of the grid, by membership-function tag, mirroring the
three branches of `GridPartitioner.build` (`Grid.py` lines 31-37). -/
def gridSet (mf : MF) (partlen : ℚ) (count : ℕ) (c : ℚ) : GFuzzySet :=
  match mf with
  | .trimf => ⟨grid_set_name count, .trimf, [c - partlen, c, c + partlen], c⟩
  | .gaussmf => ⟨grid_set_name count, .gaussmf, [c, partlen / 3], c⟩
  | .trapmf =>
    ⟨grid_set_name count, .trapmf,
      [c - partlen, c - partlen / 2, c + partlen / 2, c + partlen], c⟩

/-- `GridPartitioner.build` (`Grid.py` lines 20-42): emits one fuzzy set per
center in `np.arange(min, max, partlen)` and afterwards decreases the stored
`min` by one partition width.  Returns the built sets (in spatial order)
together with the new value of the `min` field. -/
def GridPartitioner.build (mn mx : ℚ) (parts : ℕ) (mf : MF) :
    List GFuzzySet × ℚ :=
  let partlen := (mx - mn) / (parts : ℚ)
  let sets := (arangeQ mn mx partlen).enum.map
    (fun p => gridSet mf partlen p.1 p.2)
  (sets, mn - partlen)

/-- Fuzzification over grid sets (spec section 4.3 and the filter pattern of
`honsfts.py` lines 49-50 and 59-60): the sets whose membership at `x` is
strictly positive.  An empty result is exactly the condition under which the
out-of-range boundary fallback fires in the source. -/
def gridFuzzify (sets : List GFuzzySet) (x : ℚ) : List GFuzzySet :=
  sets.filter (fun s => 0 < s.membership x)

/-! ## Non-stationary fuzzy sets and FLRGs
(`pyFTS/models/nonstationary/honsfts.py` and its helpers) -/

/-- Modelled from the spec: the non-stationary fuzzy-set class of the missing
`pyFTS/models/nonstationary/common.py`.  Per the spec (section 3 and the
glossary), a non-stationary fuzzy set answers membership and its
centroid/support bounds at a time-displacement context: it is modelled as a
name together with those four evaluation functions. -/
structure NSFuzzySet where
  name : String
  membership : ℚ → ℤ → ℚ
  midpoint : ℤ → ℚ
  lower : ℤ → ℚ
  upper : ℤ → ℚ

/-- A neutral fuzzy set used as the out-of-range default of partial list
accesses (`sets[...]`, `LHS[-1]`) that cannot fail in the source. -/
def dummySet : NSFuzzySet :=
  ⟨"", fun _ _ => 0, fun _ => 0, fun _ => 0, fun _ => 0⟩

/-- `HighOrderNonStationaryFLRG` (`honsfts.py` lines 7-28): an ordered LHS,
one fuzzy set per lag, and an RHS accumulating each outcome at most once
(keyed by set name). -/
structure NSFLRG where
  LHS : List NSFuzzySet
  RHS : List NSFuzzySet

/-- Default FLRG for partial list accesses. -/
def dummyFLRG : NSFLRG := ⟨[], []⟩

/-- `append_rhs` (`honsfts.py` lines 15-17): insert the set into the RHS
mapping if no RHS entry already carries its name. -/
def NSFLRG.append_rhs (g : NSFLRG) (c : NSFuzzySet) : NSFLRG :=
  if g.RHS.any (fun s => s.name = c.name) then g
  else { g with RHS := g.RHS ++ [c] }

/-- Insertion sort of strings, used to canonicalise FLRG keys. -/
def insertStr (x : String) : List String → List String
  | [] => [x]
  | y :: ys => if x ≤ y then x :: y :: ys else y :: insertStr x ys

/-- Sort a list of strings. -/
def sortStr : List String → List String
  | [] => []
  | x :: xs => insertStr x (sortStr xs)

/-- Modelled from the spec: `get_key` of the missing
`pyFTS/models/nonstationary/flrg.py`.  Spec section 3: the key is a canonical
string built from the LHS fuzzy-set names, ties broken by sort, so rule
identity is order-insensitive. -/
def NSFLRG.get_key (g : NSFLRG) : String :=
  String.intercalate "," (sortStr (g.LHS.map (fun s => s.name)))

/-- The LHS set of the last lag, `flrg.LHS[-1]`. -/
def NSFLRG.lastLHS (g : NSFLRG) : NSFuzzySet := g.LHS.getLastD dummySet

/-- Modelled from the spec: `get_midpoint` of the missing
`pyFTS/models/nonstationary/flrg.py`.  Spec section 4.4: the FLRG answers
with the unweighted mean of its RHS sets' centroids at the displaced context;
with no RHS observation it degrades to the last LHS set's centroid. -/
def NSFLRG.get_midpoint (g : NSFLRG) (t : ℤ) : ℚ :=
  if g.RHS.isEmpty then g.lastLHS.midpoint t
  else ((g.RHS.map (fun s => s.midpoint t)).sum) / (g.RHS.length : ℚ)

/-- Modelled from the spec: `get_lower`, the unweighted mean of the RHS sets'
lower support bounds (spec section 4.4). -/
def NSFLRG.get_lower (g : NSFLRG) (t : ℤ) : ℚ :=
  if g.RHS.isEmpty then g.lastLHS.lower t
  else ((g.RHS.map (fun s => s.lower t)).sum) / (g.RHS.length : ℚ)

/-- Modelled from the spec: `get_upper`, the unweighted mean of the RHS sets'
upper support bounds (spec section 4.4). -/
def NSFLRG.get_upper (g : NSFLRG) (t : ℤ) : ℚ :=
  if g.RHS.isEmpty then g.lastLHS.upper t
  else ((g.RHS.map (fun s => s.upper t)).sum) / (g.RHS.length : ℚ)

/-- Modelled from the spec: `window_index` of the missing
`pyFTS/models/nonstationary/common.py`.  The spec says only that a
`window_size` option controls the time-displaced context lookup; it is
modelled as flooring the time index to a multiple of the window size.  Every
theorem below holds for an arbitrary result of this function. -/
def window_index (t w : ℤ) : ℤ := t - t % w

/-- Modelled from the spec: `check_bounds` of the missing
`pyFTS/models/nonstationary/common.py`.  Spec section 4.3: when a value has
positive membership in no set, the fallback selects the nearest boundary
set — the first if the value lies below the centroids, the last if above. -/
def check_bounds (x : ℚ) (sets : List NSFuzzySet) (t : ℤ) : NSFuzzySet :=
  if x < (sets.headD dummySet).midpoint t then sets.headD dummySet
  else sets.getLastD dummySet

/-- Modelled from the spec: `check_bounds_index`, the index form of
`check_bounds` used by `_affected_flrgs`: index 0 for the first boundary set,
`len(sets) - 1` for the last. -/
def check_bounds_index (x : ℚ) (sets : List NSFuzzySet) (t : ℤ) : ℕ :=
  if x < (sets.headD dummySet).midpoint t then 0
  else sets.length - 1

/-- Modelled from the spec: the path-tree enumeration of the missing
`pyFTS/common/tree.py` (`build_tree_without_order` followed by `paths()`,
reversed and filtered as in `honsfts.py` lines 72-74 and 125-126).  Spec
section 4.5: every combination (Cartesian product) of the per-lag candidate
lists, the first lag varying slowest. -/
def cartPaths {α : Type} (ls : List (List α)) : List (List α) :=
  ls.foldr (fun xs acc => (xs.map (fun x => acc.map (fun p => x :: p))).flatten)
    [[]]

/-- The high-order non-stationary model state: order, the partitioner's
ordered fuzzy sets, and the rule table (`flrgs`), an insertion-ordered
mapping from FLRG key to FLRG. -/
structure NSModel where
  order : ℕ
  sets : List NSFuzzySet
  flrgs : List (String × NSFLRG)

/-- Replace the entry at `key` by applying `f` to it. -/
def tableUpdate (t : List (String × NSFLRG)) (key : String)
    (f : NSFLRG → NSFLRG) : List (String × NSFLRG) :=
  t.map (fun p => if p.1 = key then (p.1, f p.2) else p)

/-- One iteration (a fixed `k`) of the training loop of `generate_flrg`
(`honsfts.py` lines 42-83): fuzzify the target and each lag (with boundary
fallback), enumerate all LHS paths, and accumulate every RHS candidate into
the FLRG of each path. -/
def genStep (m : NSModel) (data : List ℚ) (ws : ℤ) (k : ℕ)
    (table : List (String × NSFLRG)) : List (String × NSFLRG) :=
  let sample := (data.drop (k - m.order)).take m.order
  let disp := window_index (k : ℤ) ws
  let rhs0 := m.sets.filter (fun s => 0 < s.membership (data.getD k 0) disp)
  let rhs := if rhs0.isEmpty then [check_bounds (data.getD k 0) m.sets disp]
    else rhs0
  let lags := (List.range m.order).map (fun (o : ℕ) =>
    let tdisp := window_index ((k : ℤ) - ((m.order : ℤ) - (o : ℤ))) ws
    let lhs0 := m.sets.filter
      (fun s => 0 < s.membership (sample.getD o 0) tdisp)
    if lhs0.isEmpty then [check_bounds (sample.getD o 0) m.sets tdisp]
    else lhs0)
  (cartPaths lags).foldl (fun tb path =>
    let g : NSFLRG := ⟨path, []⟩
    let key := g.get_key
    let tb1 := if (tb.lookup key).isSome then tb else tb ++ [(key, g)]
    rhs.foldl (fun tb2 st => tableUpdate tb2 key (fun e => e.append_rhs st))
      tb1) table

/-- `generate_flrg` (`honsfts.py` lines 39-84): run `genStep` for every
`k` in `[order, len(data))`, starting from the model's current rule table
(the table is not reset). -/
def generate_flrg (m : NSModel) (data : List ℚ) (ws : ℤ) :
    List (String × NSFLRG) :=
  (List.range' m.order (data.length - m.order)).foldl
    (fun tb k => genStep m data ws k tb) m.flrgs

/-- `train` (`honsfts.py` lines 87-96): `generate_flrg` over the data,
leaving its result as the model's rule table. -/
def NSModel.train (m : NSModel) (data : List ℚ) (ws : ℤ) : NSModel :=
  { m with flrgs := generate_flrg m data ws }

/-! ## Inference (`honsfts.py` lines 98-249) -/

/-- The per-lag candidate index lists of `_affected_flrgs` (`honsfts.py`
lines 104-115): for each lag `ct`, the indices of the ordered sets with
positive membership at `sample[ct]` under the displaced context, or the
boundary index if none has. -/
def lagIndices (m : NSModel) (sample : List ℚ) (k td ws : ℤ) :
    List (List ℕ) :=
  sample.enum.map (fun p =>
    let tdisp := window_index ((k + td) - ((m.order : ℤ) - (p.1 : ℤ))) ws
    let sel := ((m.sets.enum.filter
      (fun q => 0 < q.2.membership p.2 tdisp)).map (fun q => q.1))
    if sel.isEmpty then [check_bounds_index p.2 m.sets tdisp] else sel)

/-- The FLRG built from one enumerated path (`honsfts.py` lines 125-132):
its LHS is the ordered sets at the path's indices, its RHS is empty. -/
def pathFLRG (m : NSModel) (p : List ℕ) : NSFLRG :=
  ⟨p.map (fun i => m.sets.getD i dummySet), []⟩

/-- The joint membership degree of a candidate FLRG (`honsfts.py` lines
138-147): the product over the lags of `flrg.LHS[ct].membership(sample[ct])`
at the displaced context. -/
def jointMembership (m : NSModel) (sample : List ℚ) (k td ws : ℤ)
    (g : NSFLRG) : ℚ :=
  (sample.enum.map (fun p =>
    (g.LHS.getD p.1 dummySet).membership p.2
      (window_index ((k + td) - ((m.order : ℤ) - (p.1 : ℤ))) ws))).prod

/-- `_affected_flrgs` (`honsfts.py` lines 98-149): the candidate FLRGs of the
sample (one per enumerated path) paired with their joint membership
degrees. -/
def _affected_flrgs (m : NSModel) (sample : List ℚ) (k td ws : ℤ) :
    List NSFLRG × List ℚ :=
  let paths := cartPaths (lagIndices m sample k td ws)
  (paths.map (fun p => pathFLRG m p),
   paths.map (fun p => jointMembership m sample k td ws (pathFLRG m p)))

/-- The single-candidate midpoint policy (`honsfts.py` lines 176-180): the
trained FLRG's midpoint when the candidate's key is in the rule table,
otherwise the candidate's own last-LHS centroid. -/
def singleMid (m : NSModel) (g : NSFLRG) (tdisp : ℤ) : ℚ :=
  match m.flrgs.lookup g.get_key with
  | some tg => tg.get_midpoint tdisp
  | none => g.lastLHS.midpoint tdisp

/-- The multi-candidate midpoint policy (`honsfts.py` lines 181-189): each
candidate contributes its `singleMid` value multiplied by its joint
membership degree; the contributions are summed with no renormalization. -/
def multiMid (m : NSModel) (gs : List NSFLRG) (mvs : List ℚ)
    (tdisp : ℤ) : ℚ :=
  ((gs.zip mvs).map (fun p => singleMid m p.1 tdisp * p.2)).sum

/-- One step of `forecast` (`honsfts.py` lines 161-193): the zero-, one- and
many-candidate branches.  In the zero-candidate branch the source appends the
boundary set object itself to the accumulator (line 174); the spec reads this
as the set's representative value, which is how it is modelled here — the
branch is unreachable (see `affected_flrgs_nonempty`). -/
def forecastStep (m : NSModel) (sample : List ℚ) (k td ws : ℤ) : ℚ :=
  let af := _affected_flrgs m sample k td ws
  let tdisp := window_index (k + td) ws
  if af.1.length = 0 then
    (check_bounds (sample.getLastD 0) m.sets tdisp).midpoint tdisp
  else if af.1.length = 1 then singleMid m (af.1.headD dummyFLRG) tdisp
  else multiMid m af.1 af.2 tdisp

/-- `forecast` (`honsfts.py` lines 151-195): one `forecastStep` per
evaluation index `k` in `[order, len(ndata)]`, on the sample
`ndata[k - order : k]`. -/
def NSModel.forecast (m : NSModel) (ndata : List ℚ) (td ws : ℤ) : List ℚ :=
  (List.range' m.order (ndata.length + 1 - m.order)).map (fun k =>
    forecastStep m ((ndata.drop (k - m.order)).take m.order) (k : ℤ) td ws)

/-- The single-candidate lower-bound policy (`honsfts.py` lines 226-232). -/
def singleLow (m : NSModel) (g : NSFLRG) (tdisp : ℤ) : ℚ :=
  match m.flrgs.lookup g.get_key with
  | some tg => tg.get_lower tdisp
  | none => g.lastLHS.lower tdisp

/-- The single-candidate upper-bound policy (`honsfts.py` lines 226-232). -/
def singleUp (m : NSModel) (g : NSFLRG) (tdisp : ℤ) : ℚ :=
  match m.flrgs.lookup g.get_key with
  | some tg => tg.get_upper tdisp
  | none => g.lastLHS.upper tdisp

/-- One step of `forecast_interval` (`honsfts.py` lines 207-246): the same
zero/one/many-candidate policy applied independently to the lower and upper
support bounds, the many-candidate branch summing the weighted bounds with
no renormalization. -/
def intervalStep (m : NSModel) (sample : List ℚ) (k td ws : ℤ) : ℚ × ℚ :=
  let af := _affected_flrgs m sample k td ws
  let tdisp := window_index (k + td) ws
  if af.1.length = 0 then
    let aset := check_bounds (sample.getLastD 0) m.sets tdisp
    (aset.lower tdisp, aset.upper tdisp)
  else if af.1.length = 1 then
    (singleLow m (af.1.headD dummyFLRG) tdisp,
     singleUp m (af.1.headD dummyFLRG) tdisp)
  else
    (((af.1.zip af.2).map (fun p => singleLow m p.1 tdisp * p.2)).sum,
     ((af.1.zip af.2).map (fun p => singleUp m p.1 tdisp * p.2)).sum)

/-- `forecast_interval` (`honsfts.py` lines 197-249): one interval per
evaluation index `k` in `[order, len(ndata)]`. -/
def NSModel.forecast_interval (m : NSModel) (ndata : List ℚ) (td ws : ℤ) :
    List (ℚ × ℚ) :=
  (List.range' m.order (ndata.length + 1 - m.order)).map (fun k =>
    intervalStep m ((ndata.drop (k - m.order)).take m.order) (k : ℤ) td ws)

/-! ## Clustered multivariate wrapper (`pyFTS/models/multivariate/cmvfts.py`) -/

/-- Modelled from the spec: the internal single-target FTS model held by
`ClusteredMVFTS` (built by the missing `pyFTS/models/hofts.py`).  Only its
capability flags and forecasting entry points matter to the wrapper: they are
modelled as fields. -/
structure InternalFTS (α ι δ : Type) where
  has_interval_forecasting : Bool
  has_probability_forecasting : Bool
  forecast_interval : List α → List ι
  forecast_distribution : List α → List δ

/-- Modelled from the spec: the state of `ClusteredMVFTS` needed by its
capability-checked forecasts: the internal model and the data-preparation
pipeline `check_data` (fuzzyfication through the multivariate partitioner,
whose classes are not in the sources). -/
structure ClusteredMVFTS (α β ι δ : Type) where
  model : InternalFTS α ι δ
  check_data : β → List α

/-- `ClusteredMVFTS.forecast_interval` (`cmvfts.py` lines 75-84): raise if
the internal model lacks interval forecasting, otherwise delegate on the
prepared data.  The capability test precedes all data preparation and
forecasting work, so the error value does not depend on the data. -/
def ClusteredMVFTS.forecast_interval {α β ι δ : Type}
    (m : ClusteredMVFTS α β ι δ) (data : β) : Except String (List ι) :=
  if m.model.has_interval_forecasting then
    Except.ok (m.model.forecast_interval (m.check_data data))
  else Except.error "The internal method does not support interval forecasting!"

/-- `ClusteredMVFTS.forecast_distribution` (`cmvfts.py` lines 88-97): raise
if the internal model lacks probability forecasting, otherwise delegate on
the prepared data. -/
def ClusteredMVFTS.forecast_distribution {α β ι δ : Type}
    (m : ClusteredMVFTS α β ι δ) (data : β) : Except String (List δ) :=
  if m.model.has_probability_forecasting then
    Except.ok (m.model.forecast_distribution (m.check_data data))
  else Except.error "The internal method does not support probabilistic forecasting!"

/-- Python's `l[-n:]` on a list whose length may differ from `n`:
the whole list when `n = 0`, otherwise the last `n` entries. -/
def pyLastN {α : Type} (n : ℕ) (l : List α) : List α :=
  if n = 0 then l else l.drop (l.length - n)

/-- The loop of `ClusteredMVFTS.forecast_ahead_distribution` (`cmvfts.py`
lines 114-140): at each of the `steps` iterations, forecast one distribution
from the last `max_lag` rows of the rolling buffer, append it to the result,
and extend the buffer with the next data point (built by the generators and
the distribution's expected value — modelled from the spec as the abstract
`next_point`, because the generator models and the distribution class are not
in the sources). -/
def fadLoop {α δ : Type} (max_lag : ℕ) (fcd : List α → δ)
    (next_point : List α → δ → α) :
    ℕ → List α → List δ → List α × List δ
  | 0, sample, ret => (sample, ret)
  | n + 1, sample, ret =>
    let tmp := fcd (pyLastN max_lag sample)
    fadLoop max_lag fcd next_point n (sample ++ [next_point sample tmp])
      (ret ++ [tmp])

/-- `ClusteredMVFTS.forecast_ahead_distribution` (`cmvfts.py` lines 99-142):
raise when no `generators` argument is given; otherwise seed the buffer with
`max_lag` rows starting at `start`, run the loop for `steps` iterations and
return the last `steps` results. -/
def ClusteredMVFTS.forecast_ahead_distribution {α γ δ : Type} (max_lag : ℕ)
    (fcd : List α → δ) (next_point : List α → δ → α) (generators : Option γ)
    (ndata : List α) (start steps : ℕ) : Except String (List δ) :=
  match generators with
  | none => Except.error "You must provide parameter generators!"
  | some _ =>
    let sample := (ndata.drop start).take max_lag
    Except.ok (pyLastN steps (fadLoop max_lag fcd next_point steps sample []).2)

/-! ## Ensemble multi-step intervals
(`pyFTS/models/ensemble/ensemble.py`, `forecast_ahead_interval`) -/

/-- The loop of `EnsembleFTS.forecast_ahead_interval` (`ensemble.py` lines
197-216): at each iteration take the last `order` entries of the rolling
buffer as per-lag candidate lists, enumerate their Cartesian product, collect
the component models' forecasts of every path, extend the buffer with the
sampler's summary of those forecasts, and append one interval.  The component
models (`get_models_forecasts`, here `gmf`) and the numpy/scipy numerics of
`sampler` and `get_interval` (here `samplerF`, `getIntervalF`) are modelled
from the spec as abstract functions: the member models and the statistics
library are external to the sources.  When `get_interval` yields a single
interval the source unwraps it (`interval = interval[0]`), so a result entry
is either one unwrapped interval (`Sum.inl`) or the raw list (`Sum.inr`). -/
def faiLoop {ι : Type} (order : ℕ) (gmf : List ℚ → List ℚ)
    (samplerF : List ℚ → List ℚ) (getIntervalF : List ℚ → List ι) :
    ℕ → List (List ℚ) → List (ι ⊕ List ι) → List (ι ⊕ List ι)
  | 0, _, ret => ret
  | n + 1, sample, ret =>
    let forecasts := (cartPaths (pyLastN order sample)).flatMap gmf
    let entry : ι ⊕ List ι :=
      match getIntervalF forecasts with
      | [x] => Sum.inl x
      | l => Sum.inr l
    faiLoop order gmf samplerF getIntervalF n (sample ++ [samplerF forecasts])
      (ret ++ [entry])

/-- `EnsembleFTS.forecast_ahead_interval` (`ensemble.py` lines 186-219):
seed the buffer with the singleton lists `[[k] for k in data[start :
start+order]]`, run `steps` iterations and return the last `steps`
entries. -/
def EnsembleFTS.forecast_ahead_interval {ι : Type} (order : ℕ)
    (gmf : List ℚ → List ℚ) (samplerF : List ℚ → List ℚ)
    (getIntervalF : List ℚ → List ι) (data : List ℚ) (start steps : ℕ) :
    List (ι ⊕ List ι) :=
  let sample := ((data.drop start).take order).map (fun x => [x])
  pyLastN steps (faiLoop order gmf samplerF getIntervalF steps sample [])

/-! ## Generic helper lemmas -/

/-- A `foldl` whose every step preserves a predicate preserves it overall. -/
theorem foldl_preserve {α β : Type} (P : β → Prop) (step : β → α → β)
    (h : ∀ t x, P t → P (step t x)) :
    ∀ (l : List α) (t : β), P t → P (l.foldl step t)
  | [], _, ht => ht
  | x :: xs, t, ht => foldl_preserve P step h xs (step t x) (h t x ht)

/-- The Cartesian product of nonempty candidate lists is nonempty. -/
theorem cartPaths_ne_nil {α : Type} :
    ∀ (ls : List (List α)), (∀ l ∈ ls, l ≠ []) → cartPaths ls ≠ []
  | [], _ => by simp [cartPaths]
  | xs :: ls, h => by
    have hxs : xs ≠ [] := h xs (by simp)
    have hrec : cartPaths ls ≠ [] :=
      cartPaths_ne_nil ls (fun l hl => h l (by simp [hl]))
    simp only [cartPaths, List.foldr_cons] at *
    intro hc
    rw [List.flatten_eq_nil_iff] at hc
    obtain ⟨x, hx⟩ := List.exists_mem_of_ne_nil xs hxs
    have := hc _ (List.mem_map_of_mem _ hx)
    exact hrec (List.map_eq_nil_iff.mp this)

/-- Every per-lag candidate list of `_affected_flrgs` is nonempty: the
boundary-index fallback replaces an empty selection. -/
theorem lagIndices_ne_nil (m : NSModel) (sample : List ℚ) (k td ws : ℤ) :
    ∀ l ∈ lagIndices m sample k td ws, l ≠ [] := by
  intro l hl
  simp only [lagIndices, List.mem_map] at hl
  obtain ⟨p, _, hp⟩ := hl
  by_cases hsel : (((m.sets.enum.filter
      (fun q => 0 < q.2.membership p.2
        (window_index ((k + td) - ((m.order : ℤ) - (p.1 : ℤ))) ws))).map
        (fun q => q.1))).isEmpty
  · simp [← hp, hsel]
  · simp only [← hp, hsel, if_neg, Bool.false_eq_true, not_false_iff, ite_false]
    simpa [List.isEmpty_iff] using hsel

/-- C10: for every model of order at least 1 and every sample of length
equal to the order, `_affected_flrgs` returns at least one candidate FLRG:
each lag whose candidate list is empty receives the boundary-index fallback,
so the Cartesian product of the per-lag lists is nonempty.  Consequently the
`len(affected_flrgs) == 0` fallback branches of `forecast` (line 173) and
`forecast_interval` (line 221) are unreachable. -/
theorem affected_flrgs_nonempty (m : NSModel) (sample : List ℚ)
    (k td ws : ℤ) (h1 : 1 ≤ m.order) (h2 : sample.length = m.order) :
    (_affected_flrgs m sample k td ws).1 ≠ [] := by
  simp only [_affected_flrgs, ne_eq, List.map_eq_nil_iff]
  exact cartPaths_ne_nil _ (lagIndices_ne_nil m sample k td ws)

/-- Witness for `affected_flrgs_nonempty` at a concrete input. -/
theorem affected_flrgs_nonempty_witness :
    (_affected_flrgs ⟨1, [], []⟩ [0] 1 0 1).1 ≠ [] :=
  affected_flrgs_nonempty ⟨1, [], []⟩ [0] 1 0 1 (by norm_num) (by norm_num)

/-- C2: a trained model of order `o ≥ 1` forecasting a series of length
`l ≥ o` returns exactly `l - o + 1` point forecasts, one per evaluation
index `k` in `[o, l]`. -/
theorem forecast_length (m : NSModel) (ndata : List ℚ) (td ws : ℤ)
    (h1 : 1 ≤ m.order) (h2 : m.order ≤ ndata.length) :
    (m.forecast ndata td ws).length = ndata.length - m.order + 1 := by
  simp only [NSModel.forecast, List.length_map, List.length_range']
  omega

/-- Witness for `forecast_length` at a concrete input. -/
theorem forecast_length_witness :
    (NSModel.forecast ⟨1, [], []⟩ [0, 1] 0 1).length = 2 :=
  forecast_length ⟨1, [], []⟩ [0, 1] 0 1 (by norm_num) (by norm_num)

/-- The distribution loop appends exactly one result per iteration. -/
theorem fadLoop_length {α δ : Type} (max_lag : ℕ) (fcd : List α → δ)
    (next_point : List α → δ → α) :
    ∀ (n : ℕ) (sample : List α) (ret : List δ),
      (fadLoop max_lag fcd next_point n sample ret).2.length = ret.length + n
  | 0, _, _ => rfl
  | n + 1, sample, ret => by
    simp only [fadLoop]
    rw [fadLoop_length max_lag fcd next_point n]
    simp
    omega

/-- The ensemble interval loop appends exactly one entry per iteration. -/
theorem faiLoop_length {ι : Type} (order : ℕ) (gmf : List ℚ → List ℚ)
    (samplerF : List ℚ → List ℚ) (getIntervalF : List ℚ → List ι) :
    ∀ (n : ℕ) (sample : List (List ℚ)) (ret : List (ι ⊕ List ι)),
      (faiLoop order gmf samplerF getIntervalF n sample ret).length =
        ret.length + n
  | 0, _, _ => rfl
  | n + 1, sample, ret => by
    simp only [faiLoop]
    rw [faiLoop_length order gmf samplerF getIntervalF n]
    simp
    omega

/-- `l[-n:]` keeps all `n` entries of a list of length `n`. -/
theorem pyLastN_of_length {α : Type} (n : ℕ) (l : List α)
    (h : l.length = n) : pyLastN n l = l := by
  unfold pyLastN
  rcases Nat.eq_zero_or_pos n with h0 | h0
  · simp [h0]
  · simp [Nat.pos_iff_ne_zero.mp h0, h]

/-- C8: every `forecast_ahead*` operation invoked with `steps = n` returns a
sequence of exactly `n` entries: `ClusteredMVFTS.forecast_ahead_distribution`
(given its required `generators` argument) returns exactly `steps`
distribution objects, and `EnsembleFTS.forecast_ahead_interval` returns
exactly `steps` interval entries. -/
theorem forecast_ahead_length :
    (∀ (α γ δ : Type) (max_lag : ℕ) (fcd : List α → δ)
      (next_point : List α → δ → α) (g : γ) (ndata : List α)
      (start steps : ℕ),
      (ClusteredMVFTS.forecast_ahead_distribution max_lag fcd next_point
        (some g) ndata start steps).map List.length = Except.ok steps) ∧
    (∀ (ι : Type) (order : ℕ) (gmf : List ℚ → List ℚ)
      (samplerF : List ℚ → List ℚ) (getIntervalF : List ℚ → List ι)
      (data : List ℚ) (start steps : ℕ),
      (EnsembleFTS.forecast_ahead_interval order gmf samplerF getIntervalF
        data start steps).length = steps) := by
  constructor
  · intro α γ δ max_lag fcd next_point g ndata start steps
    have h := fadLoop_length max_lag fcd next_point steps
      ((ndata.drop start).take max_lag) []
    simp only [List.length_nil, Nat.zero_add] at h
    simp only [ClusteredMVFTS.forecast_ahead_distribution,
      pyLastN_of_length steps _ h, Except.map, h]
  · intro ι order gmf samplerF getIntervalF data start steps
    have h := faiLoop_length order gmf samplerF getIntervalF steps
      (((data.drop start).take order).map (fun x => [x])) []
    simp only [List.length_nil, Nat.zero_add] at h
    simp only [EnsembleFTS.forecast_ahead_interval,
      pyLastN_of_length steps _ h, h]

/-- C9: the clustered multivariate wrapper's interval forecast errors exactly
when the internal model lacks interval forecasting, and its distribution
forecast errors exactly when the internal model lacks probability
forecasting; with the capability present the call delegates to the internal
model on the prepared data, and without it the result is a fixed error value,
independent of the data and of the internal forecasting functions (the check
precedes all forecasting work). -/
theorem capability_check (α β ι δ : Type) (m : ClusteredMVFTS α β ι δ)
    (data : β) :
    ((∃ e, m.forecast_interval data = Except.error e) ↔
      m.model.has_interval_forecasting = false) ∧
    (m.model.has_interval_forecasting = true →
      m.forecast_interval data =
        Except.ok (m.model.forecast_interval (m.check_data data))) ∧
    (m.model.has_interval_forecasting = false →
      m.forecast_interval data =
        Except.error "The internal method does not support interval forecasting!") ∧
    ((∃ e, m.forecast_distribution data = Except.error e) ↔
      m.model.has_probability_forecasting = false) ∧
    (m.model.has_probability_forecasting = true →
      m.forecast_distribution data =
        Except.ok (m.model.forecast_distribution (m.check_data data))) ∧
    (m.model.has_probability_forecasting = false →
      m.forecast_distribution data =
        Except.error "The internal method does not support probabilistic forecasting!") := by
  unfold ClusteredMVFTS.forecast_interval ClusteredMVFTS.forecast_distribution
  rcases hI : m.model.has_interval_forecasting <;>
    rcases hP : m.model.has_probability_forecasting <;> simp [hI, hP]

/-- Witness for `capability_check`: a capable internal model delegates and an
incapable one errors, at concrete inputs. -/
theorem capability_check_witness :
    (ClusteredMVFTS.forecast_interval
      ⟨⟨true, true, fun l => [l.length], fun l => [l.length]⟩, id⟩
      ([3, 4] : List ℚ) = Except.ok [2]) ∧
    (ClusteredMVFTS.forecast_interval
      ⟨⟨false, false, fun l => [l.length], fun l => [l.length]⟩, id⟩
      ([3, 4] : List ℚ) =
      Except.error "The internal method does not support interval forecasting!") := by
  constructor
  · exact (capability_check ℚ (List ℚ) ℕ ℕ
      ⟨⟨true, true, fun l => [l.length], fun l => [l.length]⟩, id⟩
      [3, 4]).2.1 rfl
  · exact (capability_check ℚ (List ℚ) ℕ ℕ
      ⟨⟨false, false, fun l => [l.length], fun l => [l.length]⟩, id⟩
      [3, 4]).2.2.1 rfl

/-- C1: whenever more than one candidate FLRG is affected by the current
sample, the point forecast of the step equals the sum, over all enumerated
candidate paths, of the trained FLRG's midpoint (when the candidate's key is
in the rule table; otherwise the candidate's own last-LHS centroid)
multiplied by the candidate's joint membership degree — the product of its
per-lag memberships — with no renormalization by the total weight. -/
theorem forecast_multi_weighted_sum (m : NSModel) (sample : List ℚ)
    (k td ws : ℤ)
    (h : 1 < (_affected_flrgs m sample k td ws).1.length) :
    forecastStep m sample k td ws =
      ((cartPaths (lagIndices m sample k td ws)).map (fun p =>
        (match m.flrgs.lookup (pathFLRG m p).get_key with
          | some tg => tg.get_midpoint (window_index (k + td) ws)
          | none => (pathFLRG m p).lastLHS.midpoint (window_index (k + td) ws)) *
        (sample.enum.map (fun q =>
          ((pathFLRG m p).LHS.getD q.1 dummySet).membership q.2
            (window_index ((k + td) - ((m.order : ℤ) - (q.1 : ℤ))) ws))).prod)).sum := by
  have h0 : ¬ (_affected_flrgs m sample k td ws).1.length = 0 := by omega
  have h1 : ¬ (_affected_flrgs m sample k td ws).1.length = 1 := by omega
  simp only [forecastStep, h0, h1, if_false, ite_false]
  simp only [multiMid, _affected_flrgs, List.zip_map', List.map_map]
  rfl

/-- A time-invariant triangular non-stationary fuzzy set, the shape a grid
partitioner produces (center `b`, support `[a, c]`), used for concrete
instances. -/
def triNS (nm : String) (a b c : ℚ) : NSFuzzySet :=
  ⟨nm, fun x _ => trimf x [a, b, c], fun _ => b, fun _ => a, fun _ => c⟩

/-- Concrete order-1 model with two adjacent triangular sets and one trained
rule `A1 -> A1`. -/
def mSingle : NSModel :=
  ⟨1, [triNS "A0" (-1) 0 1, triNS "A1" 0 1 2],
   [("A1", ⟨[triNS "A1" 0 1 2], [triNS "A1" 0 1 2]⟩)]⟩



/-- Witness for `forecast_multi_weighted_sum`: at the sample value 1/2 both
adjacent sets match, giving two candidates. -/
theorem forecast_multi_weighted_sum_witness :
    1 < (_affected_flrgs mSingle [1/2] 1 0 1).1.length ∧
    forecastStep mSingle [1/2] 1 0 1 =
      ((cartPaths (lagIndices mSingle [1/2] 1 0 1)).map (fun p =>
        (match mSingle.flrgs.lookup (pathFLRG mSingle p).get_key with
          | some tg => tg.get_midpoint (window_index (1 + 0) 1)
          | none =>
            (pathFLRG mSingle p).lastLHS.midpoint (window_index (1 + 0) 1)) *
        (([(1:ℚ)/2]).enum.map (fun q =>
          ((pathFLRG mSingle p).LHS.getD q.1 dummySet).membership q.2
            (window_index ((1 + 0) - ((mSingle.order : ℤ) - (q.1 : ℤ)))
              1))).prod)).sum := by
  have h : 1 < (_affected_flrgs mSingle [1/2] 1 0 1).1.length := by
    norm_num [_affected_flrgs, lagIndices, cartPaths, window_index,
      check_bounds_index, mSingle, triNS, trimf, List.enum, List.enumFrom]
  exact ⟨h, forecast_multi_weighted_sum mSingle [1/2] 1 0 1 h⟩

/-- C4 counterexample: at the sample value 3/2 exactly one fuzzy set (`A1`)
has positive membership at the only lag, so exactly one candidate FLRG is
affected; yet the multi-candidate weighted sum gives midpoint times joint
membership 1/2, which differs from the single-candidate branch's result (the
joint membership degree is 1/2, not 1), so the claimed reduction fails. -/
theorem single_match_not_reduced :
    (mSingle.sets.filter (fun s => 0 < s.membership (3/2) 0)).length = 1 ∧
    (_affected_flrgs mSingle [3/2] 1 0 1).1.length = 1 ∧
    multiMid mSingle (_affected_flrgs mSingle [3/2] 1 0 1).1
        (_affected_flrgs mSingle [3/2] 1 0 1).2 1 ≠
      singleMid mSingle
        ((_affected_flrgs mSingle [3/2] 1 0 1).1.headD dummyFLRG) 1 := by
  refine ⟨?_, ?_, ?_⟩ <;>
    norm_num [_affected_flrgs, lagIndices, cartPaths, window_index,
      check_bounds_index, mSingle, triNS, trimf, List.enum, List.enumFrom,
      multiMid, singleMid, jointMembership, pathFLRG, NSFLRG.get_key,
      NSFLRG.get_midpoint, NSFLRG.lastLHS, sortStr, insertStr,
      String.intercalate, String.intercalate.go, List.lookup]

/-- C4 amended: when exactly one candidate FLRG is affected and its joint
membership degree equals 1 (as when every lag value sits at its unique
matching set's center), the multi-candidate weighted-sum branch reduces
exactly to the single-candidate branch's result, with no double counting. -/
theorem single_match_reduction (m : NSModel) (sample : List ℚ)
    (k td ws : ℤ) (g : NSFLRG)
    (h : _affected_flrgs m sample k td ws = ([g], [1])) :
    multiMid m (_affected_flrgs m sample k td ws).1
      (_affected_flrgs m sample k td ws).2 (window_index (k + td) ws) =
      forecastStep m sample k td ws := by
  simp [forecastStep, h, multiMid, singleMid]

/-- Witness for `single_match_reduction`: at the sample value 1 only `A1`
matches, with membership exactly 1. -/
theorem single_match_reduction_witness :
    _affected_flrgs mSingle [1] 1 0 1 = ([⟨[triNS "A1" 0 1 2], []⟩], [1]) ∧
    multiMid mSingle (_affected_flrgs mSingle [1] 1 0 1).1
      (_affected_flrgs mSingle [1] 1 0 1).2 (window_index (1 + 0) 1) =
      forecastStep mSingle [1] 1 0 1 := by
  have hh : _affected_flrgs mSingle [1] 1 0 1 =
      ([⟨[triNS "A1" 0 1 2], []⟩], [1]) := by
    norm_num [_affected_flrgs, lagIndices, cartPaths, window_index,
      check_bounds_index, mSingle, triNS, trimf, List.enum, List.enumFrom,
      jointMembership, pathFLRG]
  exact ⟨hh, single_match_reduction mSingle [1] 1 0 1 ⟨[triNS "A1" 0 1 2], []⟩ hh⟩

/-- `tableUpdate` keeps every key: lookups stay resolvable. -/
theorem lookup_isSome_tableUpdate (t : List (String × NSFLRG)) (k : String)
    (f : NSFLRG → NSFLRG) (key : String) :
    (((tableUpdate t k f).lookup key)).isSome = ((t.lookup key)).isSome := by
  induction t with
  | nil => rfl
  | cons p t ih =>
    obtain ⟨a, b⟩ := p
    simp only [tableUpdate, List.map_cons]
    by_cases hp : a = k
    · subst hp
      rw [if_pos (show (a, b).1 = a from rfl)]
      cases hkp : key == a <;> simp only [List.lookup, hkp] <;>
        simpa [tableUpdate] using ih
    · rw [if_neg (show ¬ (a, b).1 = k from hp)]
      cases hkp : key == a <;> simp only [List.lookup, hkp] <;>
        simpa [tableUpdate] using ih

/-- A resolvable key stays resolvable after appending entries. -/
theorem lookup_isSome_append (t l : List (String × NSFLRG)) (key : String)
    (h : ((t.lookup key)).isSome) : (((t ++ l).lookup key)).isSome := by
  induction t with
  | nil => simp [List.lookup] at h
  | cons p t ih =>
    obtain ⟨a, b⟩ := p
    simp only [List.cons_append, List.lookup] at h ⊢
    cases hkp : key == a
    · simp only [hkp] at h ⊢
      exact ih h
    · simp only [hkp, Option.isSome_some]

/-- One training iteration never removes a rule key. -/
theorem genStep_preserves (m : NSModel) (data : List ℚ) (ws : ℤ) (k : ℕ)
    (table : List (String × NSFLRG)) (key : String)
    (h : ((table.lookup key)).isSome) :
    (((genStep m data ws k table).lookup key)).isSome := by
  simp only [genStep]
  apply foldl_preserve
    (fun (tb : List (String × NSFLRG)) => ((tb.lookup key)).isSome = true)
  · intro tb path hp
    dsimp only
    apply foldl_preserve
      (fun (tb : List (String × NSFLRG)) => ((tb.lookup key)).isSome = true)
    · intro tb2 st hst
      rw [lookup_isSome_tableUpdate]
      exact hst
    · by_cases hin : ((tb.lookup (NSFLRG.get_key ⟨path, []⟩))).isSome = true
      · simp only [hin, if_true, ite_true]
        exact hp
      · simp only [hin, if_false, Bool.false_eq_true, ite_false]
        exact lookup_isSome_append tb _ key hp
  · exact h

/-- C6 amended: the rule table is not rebuilt on `train`: training
accumulates into the existing table, so every rule key present before a
`train` call is still present afterwards (incremental carry-over across
separate `train` invocations). -/
theorem train_keeps_rules (m : NSModel) (data : List ℚ) (ws : ℤ)
    (key : String) (h : ((m.flrgs.lookup key)).isSome) :
    ((((m.train data ws).flrgs).lookup key)).isSome := by
  simp only [NSModel.train, generate_flrg]
  apply foldl_preserve
    (fun (tb : List (String × NSFLRG)) => ((tb.lookup key)).isSome = true)
  · intro tb kk hk
    exact genStep_preserves m data ws kk tb key hk
  · exact h

/-- Concrete order-1 model with two adjacent triangular sets and an empty
rule table, for training experiments. -/
def mTrainable : NSModel :=
  ⟨1, [triNS "A0" (-1) 0 1, triNS "A1" 0 1 2], []⟩

/-- Witness for `train_keeps_rules`: the trained rule `A1` of `mSingle`
survives a further `train` call on fresh data. -/
theorem train_keeps_rules_witness :
    (((mSingle.flrgs).lookup "A1")).isSome = true ∧
    ((((mSingle.train [0, 1] 1).flrgs).lookup "A1")).isSome = true := by
  have h : (((mSingle.flrgs).lookup "A1")).isSome = true := rfl
  exact ⟨h, train_keeps_rules mSingle [0, 1] 1 "A1" h⟩

set_option maxHeartbeats 1000000 in
/-- C6 counterexample: training `mTrainable` on `[0, 1]` and then on
`[1, 1]` leaves a rule table with keys `A0, A1`, while a fresh model trained
only on `[1, 1]` holds the single key `A1`: the rule table carries over
across `train` calls instead of being rebuilt. -/
theorem train_not_rebuilt :
    (((mTrainable.train [0, 1] 1).train [1, 1] 1).flrgs.map Prod.fst) ≠
      ((mTrainable.train [1, 1] 1).flrgs.map Prod.fst) := by
  have hb1 : ("A1" == "A0") = false := rfl
  have hb2 : ("A0" == "A1") = false := rfl
  have hb3 : ¬ ("A0" = "A1") := by decide
  have hb4 : ¬ ("A1" = "A0") := by decide
  have e1 : generate_flrg mTrainable [0, 1] 1 =
      [("A0", ⟨[triNS "A0" (-1) 0 1], [triNS "A1" 0 1 2]⟩)] := by
    norm_num [generate_flrg, genStep, mTrainable, triNS, trimf, window_index,
      check_bounds, cartPaths, NSFLRG.get_key, NSFLRG.append_rhs, tableUpdate,
      sortStr, insertStr, String.intercalate, String.intercalate.go,
      List.lookup, List.range', List.range_succ, List.range_zero, List.filter,
      hb1, hb2, hb3, hb4]
  have e2 : generate_flrg
      { mTrainable with
        flrgs := [("A0", ⟨[triNS "A0" (-1) 0 1], [triNS "A1" 0 1 2]⟩)] }
      [1, 1] 1 =
      [("A0", ⟨[triNS "A0" (-1) 0 1], [triNS "A1" 0 1 2]⟩),
       ("A1", ⟨[triNS "A1" 0 1 2], [triNS "A1" 0 1 2]⟩)] := by
    norm_num [generate_flrg, genStep, mTrainable, triNS, trimf, window_index,
      check_bounds, cartPaths, NSFLRG.get_key, NSFLRG.append_rhs, tableUpdate,
      sortStr, insertStr, String.intercalate, String.intercalate.go,
      List.lookup, List.range', List.range_succ, List.range_zero, List.filter,
      hb1, hb2, hb3, hb4]
  have e3 : generate_flrg mTrainable [1, 1] 1 =
      [("A1", ⟨[triNS "A1" 0 1 2], [triNS "A1" 0 1 2]⟩)] := by
    norm_num [generate_flrg, genStep, mTrainable, triNS, trimf, window_index,
      check_bounds, cartPaths, NSFLRG.get_key, NSFLRG.append_rhs, tableUpdate,
      sortStr, insertStr, String.intercalate, String.intercalate.go,
      List.lookup, List.range', List.range_succ, List.range_zero, List.filter,
      hb1, hb2, hb3, hb4]
  simp only [NSModel.train, e1, e2, e3]
  simp [hb3]

set_option maxHeartbeats 1000000 in
/-- C3: building the grid partitioner with `min = 0`, `max = 100`,
`partitions = 10` and triangular membership yields exactly the ten
sequentially named sets `A0 .. A9`, each triangular over one partition width
(10) on each side of its center, centers `0, 10, ..., 90`; and the stored
`min` field afterwards equals `-10` (decreased by one partition width). -/
theorem grid_build_concrete :
    GridPartitioner.build 0 100 10 MF.trimf =
      ([⟨"A0", MF.trimf, [-10, 0, 10], 0⟩,
        ⟨"A1", MF.trimf, [0, 10, 20], 10⟩,
        ⟨"A2", MF.trimf, [10, 20, 30], 20⟩,
        ⟨"A3", MF.trimf, [20, 30, 40], 30⟩,
        ⟨"A4", MF.trimf, [30, 40, 50], 40⟩,
        ⟨"A5", MF.trimf, [40, 50, 60], 50⟩,
        ⟨"A6", MF.trimf, [50, 60, 70], 60⟩,
        ⟨"A7", MF.trimf, [60, 70, 80], 70⟩,
        ⟨"A8", MF.trimf, [70, 80, 90], 80⟩,
        ⟨"A9", MF.trimf, [80, 90, 100], 90⟩], -10) := by
  have hc : (⌈((100 : ℚ) - 0) / ((10 : ℕ) : ℚ)⌉).toNat = 10 := by
    norm_num
    decide
  norm_num [GridPartitioner.build, arangeQ, gridSet, grid_set_name, hc,
    List.range_succ, List.enum, List.enumFrom, Prod.ext_iff]
  decide

set_option maxHeartbeats 1000000 in
/-- C7 counterexample: in the triangular grid over `[0, 100]` with 10
partitions, the value 100 — exactly the training data's max — has zero
membership in every set (the last set's triangle `[80, 90, 100]` vanishes at
its right endpoint), so fuzzification returns the empty candidate list and
the out-of-range boundary fallback is invoked. -/
theorem fuzzify_max_empty :
    gridFuzzify (GridPartitioner.build 0 100 10 MF.trimf).1 100 = [] := by
  have hc : (⌈((100 : ℚ) - 0) / ((10 : ℕ) : ℚ)⌉).toNat = 10 := by
    norm_num
    decide
  norm_num [gridFuzzify, GridPartitioner.build, arangeQ, gridSet,
    grid_set_name, hc, List.range_succ, List.enum, List.enumFrom,
    GFuzzySet.membership, trimf, List.filter]

/-- C7 amended: a value exactly at the training data's `min` (ignoring the
post-build shift of the stored `min` field) has membership 1 in the first
triangular grid set, so its fuzzification is a nonempty candidate list and
the out-of-range boundary fallback is not invoked; a value exactly at `max`
does invoke it (`fuzzify_max_empty`). -/
theorem fuzzify_min_nonempty (mn mx : ℚ) (n : ℕ) (h1 : mn < mx)
    (h2 : 1 ≤ n) :
    gridFuzzify (GridPartitioner.build mn mx n MF.trimf).1 mn ≠ [] := by
  have hn0 : (0 : ℚ) < (n : ℚ) := by
    exact_mod_cast Nat.pos_of_ne_zero (by omega)
  have hwpos : 0 < (mx - mn) / (n : ℚ) := div_pos (by linarith) hn0
  have hquot : (mx - mn) / ((mx - mn) / (n : ℚ)) = (n : ℚ) := by
    have hne : mx - mn ≠ 0 := by linarith
    field_simp
  have hceil : (⌈(mx - mn) / ((mx - mn) / (n : ℚ))⌉).toNat = n := by
    rw [hquot, Int.ceil_natCast, Int.toNat_natCast]
  have harange : arangeQ mn mx ((mx - mn) / (n : ℚ)) =
      (List.range n).map (fun i => mn + (i : ℚ) * ((mx - mn) / (n : ℚ))) := by
    simp only [arangeQ, hceil, if_pos hwpos]
  obtain ⟨m, rfl⟩ : ∃ m, n = m + 1 := ⟨n - 1, by omega⟩
  have hmem1 : (0 : ℚ) <
      (gridSet MF.trimf ((mx - mn) / ((m + 1 : ℕ) : ℚ)) 0
        (mn + (0 : ℚ) * ((mx - mn) / ((m + 1 : ℕ) : ℚ)))).membership mn := by
    have hw : (0 : ℚ) < (mx - mn) / ((m + 1 : ℕ) : ℚ) := hwpos
    simp only [gridSet, GFuzzySet.membership, trimf, zero_mul, add_zero]
    rw [if_neg (by linarith), if_neg (by linarith), if_pos (by linarith)]
    rw [div_self (by linarith)]
    norm_num
  apply List.ne_nil_of_mem
    (a := gridSet MF.trimf ((mx - mn) / ((m + 1 : ℕ) : ℚ)) 0
      (mn + (0 : ℚ) * ((mx - mn) / ((m + 1 : ℕ) : ℚ))))
  simp only [gridFuzzify]
  apply List.mem_filter.mpr
  refine ⟨?_, by simpa using hmem1⟩
  simp only [GridPartitioner.build, harange, List.range_succ_eq_map,
    List.map_cons, List.enum, List.enumFrom, Nat.cast_zero]
  exact List.mem_cons_self _ _

/-- Witness for `fuzzify_min_nonempty` at the spec's concrete grid. -/
theorem fuzzify_min_nonempty_witness :
    gridFuzzify (GridPartitioner.build 0 100 10 MF.trimf).1 0 ≠ [] :=
  fuzzify_min_nonempty 0 100 10 (by norm_num) (by norm_num)

/-! ## Wellformedness of fuzzy sets and interval ordering (C5) -/

/-- A wellformed non-stationary fuzzy set: memberships are nonnegative
(spec section 4.1, degrees lie in `[0, 1]`) and the support bounds are
ordered at every time-displacement context (spec section 3, `lower`/`upper`
are support bounds). -/
def wfSet (s : NSFuzzySet) : Prop :=
  (∀ x t, 0 ≤ s.membership x t) ∧ (∀ t, s.lower t ≤ s.upper t)

/-- A wellformed FLRG references only wellformed sets. -/
def wfFLRG (g : NSFLRG) : Prop :=
  (∀ s ∈ g.RHS, wfSet s) ∧ (∀ s ∈ g.LHS, wfSet s)

/-- The neutral default set is wellformed. -/
theorem wfSet_dummy : wfSet dummySet :=
  ⟨fun _ _ => le_refl 0, fun _ => le_refl 0⟩

/-- The spec's triangular membership never returns a negative degree. -/
theorem trimf_nonneg (x : ℚ) (p : List ℚ) : 0 ≤ trimf x p := by
  unfold trimf
  match p with
  | [] => exact le_refl 0
  | [_] => exact le_refl 0
  | [_, _] => exact le_refl 0
  | a :: b :: c :: _ :: _ => exact le_refl 0
  | [a, b, c] =>
    dsimp only
    split_ifs with h1 h2 h3
    · exact le_refl 0
    · exact div_nonneg (by linarith) (by linarith)
    · rcases eq_or_lt_of_le (show b ≤ c by linarith) with hbc | hbc
      · rw [hbc, sub_self, div_zero]
      · exact div_nonneg (by linarith) (by linarith)
    · exact le_refl 0

/-- A time-invariant triangular set with an ordered support is wellformed. -/
theorem wfSet_triNS (nm : String) (a b c : ℚ) (h : a ≤ c) :
    wfSet (triNS nm a b c) :=
  ⟨fun x _ => trimf_nonneg x [a, b, c], fun _ => h⟩

/-- `headD` of a list of wellformed sets is wellformed. -/
theorem wfSet_headD (l : List NSFuzzySet) (h : ∀ s ∈ l, wfSet s) :
    wfSet (l.headD dummySet) := by
  cases l with
  | nil => exact wfSet_dummy
  | cons a as => exact h a (List.mem_cons_self a as)

/-- `getLastD` of a list of wellformed sets is wellformed. -/
theorem wfSet_getLastD (l : List NSFuzzySet) (h : ∀ s ∈ l, wfSet s) :
    wfSet (l.getLastD dummySet) := by
  cases l with
  | nil => exact wfSet_dummy
  | cons a as =>
    rw [List.getLastD_eq_getLast?, List.getLast?_eq_getLast (a :: as)
      (List.cons_ne_nil a as), Option.getD_some]
    exact h _ (List.getLast_mem _)

/-- `getD` of a list of wellformed sets is wellformed. -/
theorem wfSet_getD (l : List NSFuzzySet) (i : ℕ)
    (h : ∀ s ∈ l, wfSet s) : wfSet (l.getD i dummySet) := by
  rcases hlt : l[i]? with _ | s
  · simp [List.getD, hlt, wfSet_dummy]
  · have : l.getD i dummySet = s := by simp [List.getD, hlt]
    rw [this]
    exact h s (List.getElem?_mem hlt)

/-- The boundary fallback returns a wellformed set. -/
theorem wfSet_check_bounds (x : ℚ) (sets : List NSFuzzySet) (t : ℤ)
    (h : ∀ s ∈ sets, wfSet s) : wfSet (check_bounds x sets t) := by
  unfold check_bounds
  split_ifs
  · exact wfSet_headD sets h
  · exact wfSet_getLastD sets h

/-- The first element of a nonempty list, with default. -/
theorem headD_mem {α : Type} (l : List α) (d : α) (h : l ≠ []) :
    l.headD d ∈ l := by
  cases l with
  | nil => exact absurd rfl h
  | cons a as => exact List.mem_cons_self a as

/-- A successful lookup names an entry of the table. -/
theorem lookup_mem (t : List (String × NSFLRG)) (k : String) (v : NSFLRG)
    (h : t.lookup k = some v) : (k, v) ∈ t := by
  induction t with
  | nil => simp [List.lookup] at h
  | cons p t ih =>
    obtain ⟨a, b⟩ := p
    simp only [List.lookup] at h
    cases hk : (k == a)
    · simp only [hk] at h
      exact List.mem_cons_of_mem _ (ih h)
    · simp only [hk, Option.some.injEq] at h
      rw [eq_of_beq hk, h]
      exact List.mem_cons_self _ _

/-- A wellformed FLRG answers ordered support bounds: the unweighted means
of ordered per-set bounds are ordered, and the empty-RHS fallback reads both
bounds off the same (wellformed) last LHS set. -/
theorem flrg_lower_le_upper (g : NSFLRG) (t : ℤ) (hg : wfFLRG g) :
    g.get_lower t ≤ g.get_upper t := by
  unfold NSFLRG.get_lower NSFLRG.get_upper
  split_ifs with he
  · exact (wfSet_getLastD g.LHS hg.2).2 t
  · have hsum : (g.RHS.map (fun s => s.lower t)).sum ≤
        (g.RHS.map (fun s => s.upper t)).sum :=
      List.sum_le_sum (fun s hs => (hg.1 s hs).2 t)
    gcongr

/-- Every candidate FLRG enumerated by `_affected_flrgs` has only
(wellformed) partitioner sets in its LHS. -/
theorem affected_LHS_wf (m : NSModel) (sample : List ℚ) (k td ws : ℤ)
    (hs : ∀ s ∈ m.sets, wfSet s) :
    ∀ g ∈ (_affected_flrgs m sample k td ws).1, ∀ s ∈ g.LHS, wfSet s := by
  intro g hg s hsg
  simp only [_affected_flrgs, List.mem_map] at hg
  obtain ⟨p, _, hp⟩ := hg
  rw [← hp] at hsg
  simp only [pathFLRG, List.mem_map] at hsg
  obtain ⟨i, _, hi⟩ := hsg
  rw [← hi]
  exact wfSet_getD m.sets i hs

/-- Every joint membership degree of `_affected_flrgs` is nonnegative: it is
a product of nonnegative memberships. -/
theorem affected_mv_nonneg (m : NSModel) (sample : List ℚ) (k td ws : ℤ)
    (hs : ∀ s ∈ m.sets, wfSet s) :
    ∀ w ∈ (_affected_flrgs m sample k td ws).2, 0 ≤ w := by
  intro w hw
  simp only [_affected_flrgs, List.mem_map] at hw
  obtain ⟨p, _, hp⟩ := hw
  rw [← hp]
  apply List.prod_nonneg
  intro a ha
  simp only [jointMembership, List.mem_map] at ha
  obtain ⟨q, _, hq⟩ := ha
  rw [← hq]
  have hwf : wfSet ((pathFLRG m p).LHS.getD q.1 dummySet) := by
    simp only [pathFLRG]
    have he : (p.map (fun i => m.sets.getD i dummySet)).getD q.1 dummySet =
        (p[q.1]?.map (fun i => m.sets.getD i dummySet)).getD dummySet := by
      simp [List.getD, List.getElem?_map]
    rcases hpi : p[q.1]? with _ | j
    · simp only [he, hpi, Option.map_none', Option.getD_none]
      exact wfSet_dummy
    · simp only [he, hpi, Option.map_some', Option.getD_some]
      exact wfSet_getD m.sets j hs
  exact hwf.1 q.2 _

/-- The single-candidate bound policy answers an ordered pair for a
wellformed rule table and a candidate with wellformed LHS. -/
theorem single_low_le_up (m : NSModel) (g : NSFLRG) (tdisp : ℤ)
    (ht : ∀ p ∈ m.flrgs, wfFLRG p.2) (hg : ∀ s ∈ g.LHS, wfSet s) :
    singleLow m g tdisp ≤ singleUp m g tdisp := by
  unfold singleLow singleUp
  rcases hl : m.flrgs.lookup g.get_key with _ | tg
  · exact (wfSet_getLastD g.LHS hg).2 tdisp
  · exact flrg_lower_le_upper tg tdisp
      (ht (g.get_key, tg) (lookup_mem m.flrgs g.get_key tg hl))

/-- Each interval produced by one step of `forecast_interval` is ordered, in
each of the zero-, one- and many-candidate branches. -/
theorem intervalStep_ordered (m : NSModel) (sample : List ℚ) (k td ws : ℤ)
    (hs : ∀ s ∈ m.sets, wfSet s) (ht : ∀ p ∈ m.flrgs, wfFLRG p.2) :
    (intervalStep m sample k td ws).1 ≤ (intervalStep m sample k td ws).2 := by
  simp only [intervalStep]
  split_ifs with h0 h1
  · exact (wfSet_check_bounds (sample.getLastD 0) m.sets
      (window_index (k + td) ws) hs).2 _
  · apply single_low_le_up m _ _ ht
    apply affected_LHS_wf m sample k td ws hs
    apply headD_mem
    intro hnil
    rw [hnil] at h0
    simp at h0
  · apply List.sum_le_sum
    intro q hq
    have hq1 := (List.of_mem_zip hq).1
    have hq2 := (List.of_mem_zip hq).2
    apply mul_le_mul_of_nonneg_right
    · exact single_low_le_up m q.1 _ ht
        (affected_LHS_wf m sample k td ws hs q.1 hq1)
    · exact affected_mv_nonneg m sample k td ws hs q.2 hq2

/-- C5: for a model whose sets and rule table are wellformed (as a trained
model's are, see `train_wf`), every interval produced by `forecast_interval`
satisfies `lower <= upper`, in all three branches of the zero/one/many
candidate policy. -/
theorem forecast_interval_ordered (m : NSModel) (ndata : List ℚ)
    (td ws : ℤ) (hs : ∀ s ∈ m.sets, wfSet s)
    (ht : ∀ p ∈ m.flrgs, wfFLRG p.2) :
    ∀ iv ∈ m.forecast_interval ndata td ws, iv.1 ≤ iv.2 := by
  intro iv hiv
  simp only [NSModel.forecast_interval, List.mem_map] at hiv
  obtain ⟨kk, _, hk⟩ := hiv
  rw [← hk]
  exact intervalStep_ordered m _ _ td ws hs ht

/-- A `foldl` over a list whose every step, on a list element, preserves a
predicate preserves it overall. -/
theorem foldl_preserve_mem {α β : Type} (P : β → Prop) (l : List α)
    (step : β → α → β) (h : ∀ t x, x ∈ l → P t → P (step t x)) :
    ∀ (t : β), P t → P (l.foldl step t) :=
  match l with
  | [] => fun _ ht => ht
  | x :: xs => fun t ht =>
    foldl_preserve_mem P xs step
      (fun t2 y hy => h t2 y (List.mem_cons_of_mem x hy))
      (step t x) (h t x (List.mem_cons_self x xs) ht)

/-- Every element of a Cartesian-product path comes from one of the per-lag
candidate lists. -/
theorem cartPaths_mem {α : Type} :
    ∀ (ls : List (List α)) (p : List α), p ∈ cartPaths ls →
      ∀ x ∈ p, ∃ l ∈ ls, x ∈ l
  | [], p, hp => by
    simp only [cartPaths, List.foldr_nil, List.mem_singleton] at hp
    subst hp
    intro x hx
    simp at hx
  | xs :: ls, p, hp => by
    simp only [cartPaths, List.foldr_cons] at hp
    rw [List.mem_flatten] at hp
    obtain ⟨L, hL, hpL⟩ := hp
    simp only [List.mem_map] at hL
    obtain ⟨x0, hx0, hL0⟩ := hL
    rw [← hL0] at hpL
    simp only [List.mem_map] at hpL
    obtain ⟨q, hq, hpq⟩ := hpL
    intro x hx
    rw [← hpq] at hx
    rcases List.mem_cons.mp hx with rfl | hxq
    · exact ⟨xs, List.mem_cons_self _ _, hx0⟩
    · obtain ⟨l, hl, hxl⟩ := cartPaths_mem ls q hq x hxq
      exact ⟨l, List.mem_cons_of_mem _ hl, hxl⟩

/-- Every set selected by the filter-or-boundary-fallback pattern of
`generate_flrg` is wellformed. -/
theorem wf_fallback_filter (x : ℚ) (t : ℤ) (sets : List NSFuzzySet)
    (pred : NSFuzzySet → Bool) (hs : ∀ s ∈ sets, wfSet s) :
    ∀ st ∈ (if (sets.filter pred).isEmpty then [check_bounds x sets t]
      else sets.filter pred), wfSet st := by
  intro st hst
  split_ifs at hst with h
  · simp only [List.mem_singleton] at hst
    rw [hst]
    exact wfSet_check_bounds x sets t hs
  · exact hs st (List.mem_of_mem_filter hst)

/-- `append_rhs` preserves FLRG wellformedness. -/
theorem wf_append_rhs (g : NSFLRG) (c : NSFuzzySet) (hg : wfFLRG g)
    (hc : wfSet c) : wfFLRG (g.append_rhs c) := by
  unfold NSFLRG.append_rhs
  split_ifs with h
  · exact hg
  · refine ⟨?_, hg.2⟩
    intro s hs
    rcases List.mem_append.mp hs with h1 | h1
    · exact hg.1 s h1
    · simp only [List.mem_singleton] at h1
      rw [h1]
      exact hc

/-- `tableUpdate` with `append_rhs` preserves table wellformedness. -/
theorem wf_tableUpdate (t : List (String × NSFLRG)) (key : String)
    (c : NSFuzzySet) (h0 : ∀ p ∈ t, wfFLRG p.2) (hc : wfSet c) :
    ∀ p ∈ tableUpdate t key (fun e => e.append_rhs c), wfFLRG p.2 := by
  intro pr hpr
  simp only [tableUpdate, List.mem_map] at hpr
  obtain ⟨p0, hp0, hpr0⟩ := hpr
  rw [← hpr0]
  split_ifs with h
  · exact wf_append_rhs p0.2 c (h0 p0 hp0) hc
  · exact h0 p0 hp0

/-- One training iteration preserves table wellformedness: new rules carry
only partitioner sets (or the boundary fallback) in their LHS, and RHS
accumulation appends only such sets. -/
theorem genStep_wf (m : NSModel) (data : List ℚ) (ws : ℤ) (k : ℕ)
    (table : List (String × NSFLRG)) (hs : ∀ s ∈ m.sets, wfSet s)
    (h0 : ∀ p ∈ table, wfFLRG p.2) :
    ∀ p ∈ genStep m data ws k table, wfFLRG p.2 := by
  simp only [genStep]
  refine foldl_preserve_mem
    (fun (tb : List (String × NSFLRG)) => ∀ p ∈ tb, wfFLRG p.2) _ _ ?_
    table h0
  intro tb path hmem hp
  dsimp only
  refine foldl_preserve_mem
    (fun (tb : List (String × NSFLRG)) => ∀ p ∈ tb, wfFLRG p.2) _ _ ?_ _ ?_
  · intro tb2 st hst hp2
    exact wf_tableUpdate tb2 _ st hp2 (wf_fallback_filter _ _ m.sets _ hs st hst)
  · split_ifs with hin
    · exact hp
    · intro pr hpr
      rcases List.mem_append.mp hpr with h1 | h1
      · exact hp pr h1
      · simp only [List.mem_singleton] at h1
        rw [h1]
        refine ⟨fun s hsR => absurd hsR (List.not_mem_nil s), ?_⟩
        intro s hsL
        obtain ⟨l, hl, hxl⟩ := cartPaths_mem _ path hmem s hsL
        simp only [List.mem_map] at hl
        obtain ⟨o, _, hlo⟩ := hl
        rw [← hlo] at hxl
        exact wf_fallback_filter _ _ m.sets _ hs s hxl

/-- A model trained from wellformed sets and a wellformed table keeps a
wellformed rule table: the hypotheses of `forecast_interval_ordered` hold
for every trained model. -/
theorem train_wf (m : NSModel) (data : List ℚ) (ws : ℤ)
    (hs : ∀ s ∈ m.sets, wfSet s) (h0 : ∀ p ∈ m.flrgs, wfFLRG p.2) :
    ∀ p ∈ (m.train data ws).flrgs, wfFLRG p.2 := by
  simp only [NSModel.train, generate_flrg]
  refine foldl_preserve_mem
    (fun (tb : List (String × NSFLRG)) => ∀ p ∈ tb, wfFLRG p.2) _ _ ?_
    m.flrgs h0
  intro tb kk _ hp
  exact genStep_wf m data ws kk tb hs hp

/-- Witness for `forecast_interval_ordered`: the first interval forecast by
the concrete trained model `mSingle` is ordered. -/
theorem forecast_interval_ordered_witness :
    ((mSingle.forecast_interval [1/2, 1] 0 1).headD (0, 0)).1 ≤
      ((mSingle.forecast_interval [1/2, 1] 0 1).headD (0, 0)).2 := by
  have hs : ∀ s ∈ mSingle.sets, wfSet s := by
    intro s hsm
    simp only [mSingle, List.mem_cons, List.not_mem_nil, or_false] at hsm
    rcases hsm with rfl | rfl
    · exact wfSet_triNS "A0" (-1) 0 1 (by norm_num)
    · exact wfSet_triNS "A1" 0 1 2 (by norm_num)
  have ht : ∀ p ∈ mSingle.flrgs, wfFLRG p.2 := by
    intro p hp
    simp only [mSingle, List.mem_singleton] at hp
    rw [hp]
    refine ⟨?_, ?_⟩ <;>
      · intro s hsm
        simp only [List.mem_singleton] at hsm
        rw [hsm]
        exact wfSet_triNS "A1" 0 1 2 (by norm_num)
  apply forecast_interval_ordered mSingle [1/2, 1] 0 1 hs ht
  apply headD_mem
  have hlen : (mSingle.forecast_interval [1/2, 1] 0 1).length = 2 := by
    simp [NSModel.forecast_interval, mSingle]
  intro hnil
  rw [hnil] at hlen
  simp at hlen
